import Mathlib

/-!
Verification development for the Bagel client's chunked dataset transfer
subsystem (`bagel/api/fastapi.py`): the chunk codec, the upload pipeline
(`upload_dataset` / `_upload_chunk`), the download pipeline (`load_dataset`),
the retrying query call (`_query`) and the per-call header composition
(`_popuate_headers_with_api_key`).

Strings are embedded as `List Char`; Python dicts as association lists;
the HTTP transport as explicit response-valued functions.
-/

set_option maxHeartbeats 1000000

/-! ## Chunk codec: encoding (from `upload_dataset`, lines 584-602) -/

/-- One escaping step of `field.replace('"', '""')`. -/
def escapeQuotes : List Char → List Char
  | [] => []
  | c :: cs => if c = '"' then '"' :: '"' :: escapeQuotes cs else c :: escapeQuotes cs

/-- Embeds `'"{}"'.format(field.replace('"', '""'))`: escape embedded quotes by
doubling, then wrap the field in quotes. -/
def quoteField (f : List Char) : List Char :=
  '"' :: (escapeQuotes f ++ ['"'])

/-- Embeds `','.join(parts)`. -/
def joinComma : List (List Char) → List Char
  | [] => []
  | [f] => f
  | f :: g :: fs => f ++ ',' :: joinComma (g :: fs)

/-- One encoded CSV line: every field quoted, fields joined by commas
(`','.join(quoted_row)` over the processed fields). -/
def encodeLine (fields : List (List Char)) : List Char :=
  joinComma (fields.map quoteField)

/-- Embeds `'\n'.join(lines)`. -/
def joinLines : List (List Char) → List Char
  | [] => []
  | [l] => l
  | l :: g :: ls => l ++ '\n' :: joinLines (g :: ls)

/-- The chunk payload built by `upload_dataset`:
`chunk_data = header_str + '\n'.join(rows)` with
`header_str = ','.join(processed_header) + '\n'`. -/
def encode (header : List (List Char)) (rows : List (List (List Char))) : List Char :=
  (encodeLine header ++ ['\n']) ++ joinLines (rows.map encodeLine)

/-! ## Chunk codec: decoding

The download path decodes each chunk with
`pd.read_csv(StringIO(response.text), on_bad_lines='skip')`. -/

/-- Parser state for one quoted-CSV line: before a field's opening quote,
inside a quoted field, or just after a quote character inside a field. -/
inductive PState where
  | expectOpen
  | insideField
  | sawQuote
deriving DecidableEq

/-- Modelled from the spec: the quoted-CSV line grammar produced by `encode`
(each field wrapped in quotes, embedded quotes doubled, fields joined by
commas), as consumed by the pandas CSV reader on download. Returns `none` on
a malformed line (unmatched quote, unquoted junk, empty line). -/
def scanLine (st : PState) (acc : List Char) (flds : List (List Char)) :
    List Char → Option (List (List Char))
  | [] =>
    match st with
    | .sawQuote => some (flds ++ [acc])
    | _ => none
  | c :: rest =>
    match st with
    | .expectOpen => if c = '"' then scanLine .insideField acc flds rest else none
    | .insideField =>
      if c = '"' then scanLine .sawQuote acc flds rest
      else scanLine .insideField (acc ++ [c]) flds rest
    | .sawQuote =>
      if c = '"' then scanLine .insideField (acc ++ ['"']) flds rest
      else if c = ',' then scanLine .expectOpen [] (flds ++ [acc]) rest
      else none

/-- Parse one CSV line into its fields; `none` when the line is malformed. -/
def parseCSVLine (cs : List Char) : Option (List (List Char)) :=
  scanLine .expectOpen [] [] cs

/-- Embeds splitting text into newline-separated segments (`str.split('\n')`
semantics: always at least one segment, a trailing newline yields a final
empty segment). -/
def splitLines : List Char → List (List Char)
  | [] => [[]]
  | c :: rest =>
    if c = '\n' then [] :: splitLines rest
    else
      match splitLines rest with
      | [] => [[c]]
      | l :: ls => (c :: l) :: ls

/-- Table reconstruction from the payload's line segments: the first line is
the header, each further line is parsed with the quoted-CSV grammar, and
malformed lines (unmatched quote, blank line) are skipped rather than raised
on; an unparsable header fails the whole decode. -/
def decodeAux : List (List Char) → Option (List (List Char) × List (List (List Char)))
  | [] => none
  | hl :: rest =>
    match parseCSVLine hl with
    | none => none
    | some header => some (header, rest.filterMap parseCSVLine)

/-- Modelled from the spec: `decode(payload)` is
`pd.read_csv(StringIO(payload), on_bad_lines='skip')` — a standard quoted-CSV
parse of the payload's lines with a skip-bad-lines policy, never raising on a
malformed row. -/
def decode (payload : List Char) :
    Option (List (List Char) × List (List (List Char))) :=
  decodeAux (splitLines payload)

/-! ## Codec lemmas -/

theorem scanLine_expectOpen_quote (acc : List Char) (flds : List (List Char))
    (rest : List Char) :
    scanLine .expectOpen acc flds ('"' :: rest) = scanLine .insideField acc flds rest := by
  simp [scanLine]

theorem scanLine_insideField_quote (acc : List Char) (flds : List (List Char))
    (rest : List Char) :
    scanLine .insideField acc flds ('"' :: rest) = scanLine .sawQuote acc flds rest := by
  simp [scanLine]

theorem scanLine_insideField_other {c : Char} (hc : c ≠ '"') (acc : List Char)
    (flds : List (List Char)) (rest : List Char) :
    scanLine .insideField acc flds (c :: rest) =
      scanLine .insideField (acc ++ [c]) flds rest := by
  simp [scanLine, hc]

theorem scanLine_sawQuote_quote (acc : List Char) (flds : List (List Char))
    (rest : List Char) :
    scanLine .sawQuote acc flds ('"' :: rest) =
      scanLine .insideField (acc ++ ['"']) flds rest := by
  simp [scanLine]

theorem scanLine_sawQuote_comma (acc : List Char) (flds : List (List Char))
    (rest : List Char) :
    scanLine .sawQuote acc flds (',' :: rest) =
      scanLine .expectOpen [] (flds ++ [acc]) rest := by
  simp [scanLine]

theorem scanLine_sawQuote_nil (acc : List Char) (flds : List (List Char)) :
    scanLine .sawQuote acc flds [] = some (flds ++ [acc]) := rfl

theorem escapeQuotes_quote (f : List Char) :
    escapeQuotes ('"' :: f) = '"' :: '"' :: escapeQuotes f := by
  simp [escapeQuotes]

theorem escapeQuotes_other {c : Char} (hc : c ≠ '"') (f : List Char) :
    escapeQuotes (c :: f) = c :: escapeQuotes f := by
  simp [escapeQuotes, hc]

theorem scanLine_insideField (f : List Char) :
    ∀ (acc : List Char) (flds : List (List Char)) (rest : List Char),
      scanLine .insideField acc flds (escapeQuotes f ++ '"' :: rest) =
        scanLine .sawQuote (acc ++ f) flds rest := by
  induction f with
  | nil =>
    intro acc flds rest
    simp [escapeQuotes, scanLine_insideField_quote]
  | cons c f ih =>
    intro acc flds rest
    by_cases hc : c = '"'
    · subst hc
      rw [escapeQuotes_quote, List.cons_append, List.cons_append,
        scanLine_insideField_quote, scanLine_sawQuote_quote, ih]
      simp
    · rw [escapeQuotes_other hc, List.cons_append, scanLine_insideField_other hc, ih]
      simp

theorem scanLine_fields :
    ∀ (fields : List (List Char)), fields ≠ [] → ∀ (flds : List (List Char)),
      scanLine .expectOpen [] flds (joinComma (fields.map quoteField)) =
        some (flds ++ fields) := by
  intro fields
  induction fields with
  | nil => intro h; exact absurd rfl h
  | cons f fs ih =>
    intro _ flds
    cases fs with
    | nil =>
      have h1 : joinComma ([f].map quoteField) = '"' :: (escapeQuotes f ++ '"' :: []) := rfl
      rw [h1, scanLine_expectOpen_quote, scanLine_insideField f [] flds [],
        List.nil_append, scanLine_sawQuote_nil]
    | cons g gs =>
      have h1 : joinComma ((f :: g :: gs).map quoteField) =
          '"' :: (escapeQuotes f ++ '"' :: ',' :: joinComma ((g :: gs).map quoteField)) := by
        simp [joinComma, quoteField, List.map_cons, List.append_assoc]
      rw [h1, scanLine_expectOpen_quote,
        scanLine_insideField f [] flds (',' :: joinComma ((g :: gs).map quoteField)),
        List.nil_append, scanLine_sawQuote_comma, ih (by simp) (flds ++ [f])]
      simp

theorem parseCSVLine_encodeLine (fields : List (List Char)) (h : fields ≠ []) :
    parseCSVLine (encodeLine fields) = some fields := by
  simpa [parseCSVLine, encodeLine] using scanLine_fields fields h []

theorem newline_not_mem_escapeQuotes {f : List Char} (h : '\n' ∉ f) :
    '\n' ∉ escapeQuotes f := by
  induction f with
  | nil => simp [escapeQuotes]
  | cons c f ih =>
    simp only [List.mem_cons, not_or] at h
    by_cases hc : c = '"'
    · subst hc
      rw [escapeQuotes_quote]
      simp only [List.mem_cons, not_or]
      exact ⟨by decide, by decide, ih h.2⟩
    · rw [escapeQuotes_other hc]
      simp only [List.mem_cons, not_or]
      exact ⟨h.1, ih h.2⟩

theorem newline_not_mem_quoteField {f : List Char} (h : '\n' ∉ f) :
    '\n' ∉ quoteField f := by
  simp only [quoteField, List.mem_cons, List.mem_append, List.mem_singleton, not_or]
  refine ⟨by decide, newline_not_mem_escapeQuotes h, by decide⟩

theorem newline_not_mem_joinComma {ls : List (List Char)}
    (h : ∀ l ∈ ls, '\n' ∉ l) : '\n' ∉ joinComma ls := by
  induction ls with
  | nil => simp [joinComma]
  | cons f fs ih =>
    cases fs with
    | nil => simpa [joinComma] using h f (by simp)
    | cons g gs =>
      simp only [joinComma, List.mem_append, List.mem_cons, not_or]
      refine ⟨h f (by simp), by decide, ih ?_⟩
      intro l hl
      exact h l (List.mem_cons_of_mem _ hl)

theorem newline_not_mem_encodeLine {fields : List (List Char)}
    (h : ∀ f ∈ fields, '\n' ∉ f) : '\n' ∉ encodeLine fields := by
  refine newline_not_mem_joinComma ?_
  intro l hl
  rcases List.mem_map.1 hl with ⟨f, hf, rfl⟩
  exact newline_not_mem_quoteField (h f hf)

theorem splitLines_ne_nil (cs : List Char) : splitLines cs ≠ [] := by
  induction cs with
  | nil => simp [splitLines]
  | cons c rest ih =>
    by_cases hc : c = '\n'
    · simp [splitLines, hc]
    · simp only [splitLines, if_neg hc]
      cases h : splitLines rest with
      | nil => simp
      | cons l ls => simp

theorem splitLines_of_not_mem {cs : List Char} (h : '\n' ∉ cs) :
    splitLines cs = [cs] := by
  induction cs with
  | nil => rfl
  | cons c rest ih =>
    simp only [List.mem_cons, not_or] at h
    have hc : c ≠ '\n' := Ne.symm h.1
    simp [splitLines, hc, ih h.2]

theorem splitLines_append {l : List Char} (rest : List Char) (h : '\n' ∉ l) :
    splitLines (l ++ '\n' :: rest) = l :: splitLines rest := by
  induction l with
  | nil => simp [splitLines]
  | cons c l ih =>
    simp only [List.mem_cons, not_or] at h
    have hc : c ≠ '\n' := Ne.symm h.1
    simp [splitLines, hc, ih h.2]

theorem splitLines_joinLines :
    ∀ (ls : List (List Char)), ls ≠ [] → (∀ l ∈ ls, '\n' ∉ l) →
      splitLines (joinLines ls) = ls := by
  intro ls
  induction ls with
  | nil => intro h; exact absurd rfl h
  | cons l ls ih =>
    intro _ h
    cases ls with
    | nil => simpa [joinLines] using splitLines_of_not_mem (h l (by simp))
    | cons g gs =>
      simp only [joinLines]
      rw [splitLines_append _ (h l (by simp))]
      rw [ih (by simp) (fun x hx => h x (List.mem_cons_of_mem _ hx))]

theorem filterMap_parse_encodeLines :
    ∀ (rows : List (List (List Char))), (∀ r ∈ rows, r ≠ []) →
      (rows.map encodeLine).filterMap parseCSVLine = rows := by
  intro rows
  induction rows with
  | nil => intro _; rfl
  | cons r rows ih =>
    intro h
    simp only [List.map, List.filterMap_cons,
      parseCSVLine_encodeLine r (h r (by simp))]
    rw [ih (fun x hx => h x (List.mem_cons_of_mem _ hx))]

/-! ## Claim C1: encode/decode round trip -/

/-- C1 (amended): for every nonempty header and every list of rows each
holding at least one field, with all field values free of embedded newlines,
decoding the chunk payload produced by encoding yields back exactly the
original header and rows. -/
theorem encode_decode_roundtrip (header : List (List Char))
    (rows : List (List (List Char)))
    (hh : header ≠ []) (hhn : ∀ f ∈ header, '\n' ∉ f)
    (hr : ∀ r ∈ rows, r ≠ []) (hrn : ∀ r ∈ rows, ∀ f ∈ r, '\n' ∉ f) :
    decode (encode header rows) = some (header, rows) := by
  have hnl : '\n' ∉ encodeLine header := newline_not_mem_encodeLine hhn
  have henc : encode header rows =
      encodeLine header ++ '\n' :: joinLines (rows.map encodeLine) := by
    simp [encode]
  have hrest : (splitLines (joinLines (rows.map encodeLine))).filterMap parseCSVLine
      = rows := by
    cases rows with
    | nil => rfl
    | cons r rs =>
      rw [splitLines_joinLines _ (by simp) ?_]
      · exact filterMap_parse_encodeLines _ hr
      · intro l hl
        rcases List.mem_map.1 hl with ⟨x, hx, rfl⟩
        exact newline_not_mem_encodeLine (hrn x hx)
  show decodeAux (splitLines (encode header rows)) = _
  rw [henc, splitLines_append _ hnl]
  simp only [decodeAux, parseCSVLine_encodeLine header hh]
  rw [hrest]

/-- C1 witness: a concrete nonempty table with a comma and a quote inside one
field round-trips through the codec. -/
theorem encode_decode_roundtrip_witness :
    (([['a']] : List (List Char)) ≠ [] ∧
      (∀ r ∈ ([[['x']], [['y', ',', '"']]] : List (List (List Char))), r ≠ [])) ∧
    decode (encode [['a']] [[['x']], [['y', ',', '"']]]) =
      some ([['a']], [[['x']], [['y', ',', '"']]]) :=
  ⟨⟨by decide, by decide⟩,
    encode_decode_roundtrip _ _ (by decide) (by decide) (by decide) (by decide)⟩

/-- C1 counterexample: a row with zero fields encodes to a blank line, which
the skip-bad-lines decode drops, so `decode (encode header rows)` is not
`(header, rows)` for `header = ["a"]`, `rows = [[]]` even though every field
value (there are none) is newline-free. -/
theorem encode_decode_counterexample :
    decode (encode [['a']] [[]]) ≠ some ([['a']], [[]]) ∧
    decode (encode [['a']] [[]]) = some ([['a']], []) := by
  decide

/-! ## Claim C8: malformed rows are skipped -/

/-- C8: a chunk payload in which exactly one row line is malformed (for
example holds an unmatched quote) decodes to the table containing all other
rows unchanged; the malformed row is skipped and decode is a total function,
never raising. -/
theorem decode_skips_malformed_row (header : List (List Char))
    (r1 r2 : List (List (List Char))) (b : List Char)
    (hh : header ≠ []) (hhn : ∀ f ∈ header, '\n' ∉ f)
    (h1 : ∀ r ∈ r1, r ≠ []) (h1n : ∀ r ∈ r1, ∀ f ∈ r, '\n' ∉ f)
    (h2 : ∀ r ∈ r2, r ≠ []) (h2n : ∀ r ∈ r2, ∀ f ∈ r, '\n' ∉ f)
    (hb : parseCSVLine b = none) (hbn : '\n' ∉ b) :
    decode ((encodeLine header ++ ['\n']) ++
        joinLines (r1.map encodeLine ++ b :: r2.map encodeLine)) =
      some (header, r1 ++ r2) := by
  have hnl : '\n' ∉ encodeLine header := newline_not_mem_encodeLine hhn
  have hlines : ∀ l ∈ r1.map encodeLine ++ b :: r2.map encodeLine, '\n' ∉ l := by
    intro l hl
    rcases List.mem_append.1 hl with hl1 | hl2
    · rcases List.mem_map.1 hl1 with ⟨x, hx, rfl⟩
      exact newline_not_mem_encodeLine (h1n x hx)
    · rcases List.mem_cons.1 hl2 with rfl | hl3
      · exact hbn
      · rcases List.mem_map.1 hl3 with ⟨x, hx, rfl⟩
        exact newline_not_mem_encodeLine (h2n x hx)
  have hstep : (encodeLine header ++ ['\n']) ++
      joinLines (r1.map encodeLine ++ b :: r2.map encodeLine) =
      encodeLine header ++ '\n' ::
        joinLines (r1.map encodeLine ++ b :: r2.map encodeLine) := by
    simp
  show decodeAux (splitLines _) = _
  rw [hstep, splitLines_append _ hnl, splitLines_joinLines _ (by simp) hlines]
  simp only [decodeAux, parseCSVLine_encodeLine header hh]
  rw [List.filterMap_append]
  simp only [List.filterMap_cons, hb]
  rw [filterMap_parse_encodeLines r1 h1, filterMap_parse_encodeLines r2 h2]

/-- C8 witness: a payload whose middle row line is an unmatched-quote fragment
decodes to the surrounding two rows only. -/
theorem decode_skips_malformed_row_witness :
    parseCSVLine ['"', 'x'] = none ∧
    decode ((encodeLine [['a']] ++ ['\n']) ++
        joinLines ([[['x']]].map encodeLine ++ ['"', 'x'] ::
          ([[['y']]] : List (List (List Char))).map encodeLine)) =
      some ([['a']], [[['x']], [['y']]]) :=
  ⟨by decide,
    decode_skips_malformed_row _ _ _ _ (by decide) (by decide) (by decide)
      (by decide) (by decide) (by decide) (by decide) (by decide)⟩

/-! ## Upload pipeline (from `upload_dataset` / `_upload_chunk`, lines 568-618) -/

variable {δ : Type}

/-- One multipart chunk submission made by `_upload_chunk`:
`files = {'data_file': (file_name, chunk_data)}` plus form fields
`dataset_id` and `chunk_number`. -/
structure ChunkRequest (δ : Type) where
  dataFileName : List Char
  dataFileContent : List Char
  datasetId : δ
  chunkNumber : Nat
deriving DecidableEq

/-- The buffering loop of `upload_dataset` viewed on already-encoded row
lines: lines accumulate into the buffer; when the buffer reaches
`rows_per_chunk` it is flushed as the next 1-based chunk number; after the
loop a nonempty final buffer is flushed the same way. Returns the
(chunk number, buffered row lines) pairs in emission order. -/
def uploadLoop (k : Nat) :
    List (List Char) → List (List Char) → Nat → List (Nat × List (List Char))
  | [], buf, chunkNumber =>
    if buf.isEmpty then [] else [(chunkNumber + 1, buf)]
  | line :: rest, buf, chunkNumber =>
    let buf2 := buf ++ [line]
    if buf2.length = k then
      (chunkNumber + 1, buf2) :: uploadLoop k rest [] (chunkNumber + 1)
    else uploadLoop k rest buf2 chunkNumber

/-- The chunk sequence `upload_dataset` produces for the parsed data records
of the input file: each record is quoted and joined into one line, then
buffered into windows of `rows_per_chunk` lines. -/
def uploadChunks (k : Nat) (records : List (List (List Char))) :
    List (Nat × List (List Char)) :=
  uploadLoop k (records.map encodeLine) [] 0

/-- The main loop of `upload_dataset`, emitting the multipart requests handed
to `_upload_chunk`: each record is escaped and enclosed in quotes, appended to
the buffer, and when the buffer holds `rows_per_chunk` lines the chunk
`chunk_data = header_str + '\n'.join(rows)` is submitted; the final partial
buffer, when nonempty, is submitted the same way. -/
def uploadGo (k : Nat) (fileName : List Char) (datasetId : δ) (headerStr : List Char) :
    List (List (List Char)) → List (List Char) → Nat → List (ChunkRequest δ)
  | [], buf, chunkNumber =>
    if buf.isEmpty then []
    else [⟨fileName, headerStr ++ joinLines buf, datasetId, chunkNumber + 1⟩]
  | record :: rest, buf, chunkNumber =>
    let line := encodeLine record
    let buf2 := buf ++ [line]
    if buf2.length = k then
      ⟨fileName, headerStr ++ joinLines buf2, datasetId, chunkNumber + 1⟩ ::
        uploadGo k fileName datasetId headerStr rest [] (chunkNumber + 1)
    else uploadGo k fileName datasetId headerStr rest buf2 chunkNumber

/-- Embeds `upload_dataset(file_path, dataset_id, file_name, rows_per_chunk)`
with the opened file given by its parsed CSV records (`header` plus
`records`), returning the submitted chunk requests in order. Line 581
`file_name = file.name` rebinds the caller-supplied `file_name` to the name
of the opened file — the file path — before any chunk is submitted. -/
def upload_dataset (filePath : List Char) (datasetId : δ) (fileName : List Char)
    (header : List (List Char)) (records : List (List (List Char))) (k : Nat) :
    List (ChunkRequest δ) :=
  let fileName := filePath
  let headerStr := encodeLine header ++ ['\n']
  uploadGo k fileName datasetId headerStr records [] 0

/-- Embeds Python `str.splitlines()` on newline-separated text: like
`splitLines`, but a trailing newline does not contribute a final empty
segment, and the empty text has no lines. -/
def pySplitlines (cs : List Char) : List (List Char) :=
  let ls := splitLines cs
  if ls.getLast? = some [] then ls.dropLast else ls

/-- The per-chunk progress increment of `_upload_chunk`:
`len(chunk_data.splitlines()) - 1`, the chunk's line count minus the header
line. -/
def chunkRowCount (chunkData : List Char) : Nat :=
  (pySplitlines chunkData).length - 1

/-- The pre-scan `sum(1 for row in file) - 1` of line 573: the file's
physical line count minus the one header line. The embedding presents the
opened file by its parsed CSV records, one record per physical line — a blank
data line is the zero-field record `[]`, and fields with embedded newlines,
which would spread one record over several lines, lie outside this embedding
— so the physical data-line count is the number of records. -/
def preScanRowCount (records : List (List (List Char))) : Nat :=
  records.length

/-- Embeds the transport effect of submitting the chunk requests through
`_upload_chunk` in order: on status 200 the progress bar advances by
`len(chunk_data.splitlines()) - 1`; on any other status the chunk number is
reported as failed and the pipeline continues with the next chunk. -/
def runUpload (status : Nat → Nat) :
    List (ChunkRequest δ) → Nat → List Nat → Nat × List Nat
  | [], progress, failed => (progress, failed)
  | r :: rest, progress, failed =>
    if status r.chunkNumber = 200 then
      runUpload status rest (progress + chunkRowCount r.dataFileContent) failed
    else runUpload status rest progress (failed ++ [r.chunkNumber])

/-! ## Upload pipeline lemmas -/

theorem uploadLoop_join (k : Nat) :
    ∀ (lines buf : List (List Char)) (c : Nat),
      ((uploadLoop k lines buf c).map Prod.snd).flatten = buf ++ lines := by
  intro lines
  induction lines with
  | nil =>
    intro buf c
    cases buf with
    | nil => simp [uploadLoop]
    | cons b bs => simp [uploadLoop]
  | cons l rest ih =>
    intro buf c
    by_cases hflush : buf.length + 1 = k
    · simp [uploadLoop, hflush, ih]
    · simp [uploadLoop, hflush, ih]

theorem uploadLoop_numbers (k : Nat) :
    ∀ (lines buf : List (List Char)) (c : Nat),
      (uploadLoop k lines buf c).map Prod.fst =
        List.range' (c + 1) (uploadLoop k lines buf c).length := by
  intro lines
  induction lines with
  | nil =>
    intro buf c
    cases buf with
    | nil => simp [uploadLoop]
    | cons b bs => simp [uploadLoop, List.range']
  | cons l rest ih =>
    intro buf c
    by_cases hflush : buf.length + 1 = k
    · simp [uploadLoop, hflush, ih, List.range']
    · simp [uploadLoop, hflush, ih]

theorem uploadLoop_length (k : Nat) (hk : 0 < k) :
    ∀ (lines buf : List (List Char)) (c : Nat), buf.length < k →
      (uploadLoop k lines buf c).length =
        (buf.length + lines.length + (k - 1)) / k := by
  intro lines
  induction lines with
  | nil =>
    intro buf c hb
    cases buf with
    | nil =>
      have h0 : uploadLoop k [] ([] : List (List Char)) c = [] := by simp [uploadLoop]
      rw [h0]
      simp only [List.length_nil]
      exact (Nat.div_eq_of_lt (by omega)).symm
    | cons b bs =>
      have h0 : uploadLoop k [] (b :: bs) c = [(c + 1, b :: bs)] := by
        simp [uploadLoop]
      rw [h0]
      simp only [List.length_cons, List.length_nil] at hb ⊢
      have hlen : bs.length + 1 + 0 + (k - 1) = bs.length + 1 * k := by omega
      rw [hlen, Nat.add_mul_div_right _ _ hk, Nat.div_eq_of_lt (by omega)]
  | cons l rest ih =>
    intro buf c hb
    by_cases hflush : buf.length + 1 = k
    · have h0 : uploadLoop k (l :: rest) buf c =
          (c + 1, buf ++ [l]) :: uploadLoop k rest [] (c + 1) := by
        simp [uploadLoop, hflush]
      rw [h0]
      simp only [List.length_cons, List.length_nil]
      rw [ih [] (c + 1) (by simpa using hk)]
      simp only [List.length_nil, Nat.zero_add]
      have h2 : buf.length + (rest.length + 1) + (k - 1) =
          (rest.length + (k - 1)) + 1 * k := by omega
      rw [h2, Nat.add_mul_div_right _ _ hk]
    · have hlt : (buf ++ [l]).length < k := by
        simp only [List.length_append, List.length_singleton]
        omega
      have h0 : uploadLoop k (l :: rest) buf c = uploadLoop k rest (buf ++ [l]) c := by
        simp [uploadLoop, hflush]
      rw [h0, ih _ c hlt]
      have h3 : (buf ++ [l]).length + rest.length + (k - 1) =
          buf.length + (l :: rest).length + (k - 1) := by
        simp
        omega
      rw [h3]

theorem uploadLoop_sizes (k : Nat) (hk : 0 < k) :
    ∀ (lines buf : List (List Char)) (c : Nat), buf.length < k →
      ∀ p ∈ uploadLoop k lines buf c, 0 < p.2.length ∧ p.2.length ≤ k := by
  intro lines
  induction lines with
  | nil =>
    intro buf c hb p hp
    cases buf with
    | nil => simp [uploadLoop] at hp
    | cons b bs =>
      simp only [uploadLoop, List.isEmpty_cons, Bool.false_eq_true, if_false,
        List.mem_singleton] at hp
      subst hp
      simp only [List.length_cons] at hb ⊢
      omega
  | cons l rest ih =>
    intro buf c hb p hp
    by_cases hflush : buf.length + 1 = k
    · rw [show uploadLoop k (l :: rest) buf c =
          (c + 1, buf ++ [l]) :: uploadLoop k rest [] (c + 1) from by
        simp [uploadLoop, hflush]] at hp
      rcases List.mem_cons.1 hp with rfl | hp2
      · simp only [List.length_append, List.length_singleton]
        omega
      · exact ih [] (c + 1) (by simpa using hk) p hp2
    · rw [show uploadLoop k (l :: rest) buf c = uploadLoop k rest (buf ++ [l]) c from by
        simp [uploadLoop, hflush]] at hp
      have hlt : (buf ++ [l]).length < k := by
        simp only [List.length_append, List.length_singleton]
        omega
      exact ih _ c hlt p hp

theorem uploadLoop_full (k : Nat) :
    ∀ (lines buf : List (List Char)) (c : Nat) (i : Nat),
      i + 1 < (uploadLoop k lines buf c).length →
      ∃ p, (uploadLoop k lines buf c)[i]? = some p ∧ p.2.length = k := by
  intro lines
  induction lines with
  | nil =>
    intro buf c i h
    exfalso
    cases buf with
    | nil =>
      have hlen : (uploadLoop k [] ([] : List (List Char)) c).length = 0 := by
        simp [uploadLoop]
      omega
    | cons b bs =>
      have hlen : (uploadLoop k [] (b :: bs) c).length = 1 := by
        simp [uploadLoop]
      omega
  | cons l rest ih =>
    intro buf c i h
    by_cases hflush : buf.length + 1 = k
    · have h0 : uploadLoop k (l :: rest) buf c =
          (c + 1, buf ++ [l]) :: uploadLoop k rest [] (c + 1) := by
        simp [uploadLoop, hflush]
      rw [h0] at h ⊢
      cases i with
      | zero =>
        refine ⟨(c + 1, buf ++ [l]), by simp, ?_⟩
        simp only [List.length_append, List.length_singleton]
        omega
      | succ i =>
        simp only [List.getElem?_cons_succ]
        exact ih [] (c + 1) i (by simpa using h)
    · have h0 : uploadLoop k (l :: rest) buf c = uploadLoop k rest (buf ++ [l]) c := by
        simp [uploadLoop, hflush]
      rw [h0] at h ⊢
      exact ih _ c i h

theorem uploadLoop_mem (k : Nat) :
    ∀ (lines buf : List (List Char)) (c : Nat),
      ∀ p ∈ uploadLoop k lines buf c, ∀ l ∈ p.2, l ∈ buf ∨ l ∈ lines := by
  intro lines
  induction lines with
  | nil =>
    intro buf c p hp x hx
    cases buf with
    | nil => simp [uploadLoop] at hp
    | cons b bs =>
      simp only [uploadLoop, List.isEmpty_cons, Bool.false_eq_true, if_false,
        List.mem_singleton] at hp
      subst hp
      exact Or.inl hx
  | cons l rest ih =>
    intro buf c p hp x hx
    by_cases hflush : buf.length + 1 = k
    · rw [show uploadLoop k (l :: rest) buf c =
          (c + 1, buf ++ [l]) :: uploadLoop k rest [] (c + 1) from by
        simp [uploadLoop, hflush]] at hp
      rcases List.mem_cons.1 hp with rfl | hp2
      · rcases List.mem_append.1 hx with hx1 | hx2
        · exact Or.inl hx1
        · exact Or.inr (by simpa using Or.inl (List.mem_singleton.1 hx2))
      · rcases ih [] (c + 1) p hp2 x hx with hx1 | hx2
        · simp at hx1
        · exact Or.inr (List.mem_cons_of_mem _ hx2)
    · rw [show uploadLoop k (l :: rest) buf c = uploadLoop k rest (buf ++ [l]) c from by
        simp [uploadLoop, hflush]] at hp
      rcases ih _ c p hp x hx with hx1 | hx2
      · rcases List.mem_append.1 hx1 with hx3 | hx4
        · exact Or.inl hx3
        · exact Or.inr (by simpa using Or.inl (List.mem_singleton.1 hx4))
      · exact Or.inr (List.mem_cons_of_mem _ hx2)

theorem uploadGo_eq (k : Nat) (fileName : List Char) (datasetId : δ)
    (headerStr : List Char) :
    ∀ (records : List (List (List Char))) (buf : List (List Char)) (c : Nat),
      uploadGo k fileName datasetId headerStr records buf c =
        (uploadLoop k (records.map encodeLine) buf c).map
          (fun p => ⟨fileName, headerStr ++ joinLines p.2, datasetId, p.1⟩) := by
  intro records
  induction records with
  | nil =>
    intro buf c
    cases buf with
    | nil => simp [uploadGo, uploadLoop]
    | cons b bs => simp [uploadGo, uploadLoop]
  | cons r rest ih =>
    intro buf c
    by_cases hflush : buf.length + 1 = k
    · simp [uploadGo, uploadLoop, hflush, ih]
    · simp [uploadGo, uploadLoop, hflush, ih]

theorem upload_dataset_eq (filePath : List Char) (datasetId : δ)
    (fileName : List Char) (header : List (List Char))
    (records : List (List (List Char))) (k : Nat) :
    upload_dataset filePath datasetId fileName header records k =
      (uploadChunks k records).map
        (fun p => ⟨filePath, (encodeLine header ++ ['\n']) ++ joinLines p.2,
          datasetId, p.1⟩) := by
  show uploadGo k filePath datasetId (encodeLine header ++ ['\n']) records [] 0 = _
  rw [uploadGo_eq]
  rfl

theorem encodeLine_ne_nil {r : List (List Char)} (h : r ≠ []) : encodeLine r ≠ [] := by
  cases r with
  | nil => exact absurd rfl h
  | cons f fs =>
    cases fs with
    | nil => simp [encodeLine, joinComma, quoteField]
    | cons g gs => simp [encodeLine, joinComma, quoteField]

theorem pySplitlines_chunk (hdrLine : List Char) (lines : List (List Char))
    (h1 : '\n' ∉ hdrLine) (h2 : lines ≠ [])
    (h3 : ∀ l ∈ lines, '\n' ∉ l) (h4 : ∀ l ∈ lines, l ≠ []) :
    pySplitlines (hdrLine ++ '\n' :: joinLines lines) = hdrLine :: lines := by
  have hs : splitLines (hdrLine ++ '\n' :: joinLines lines) = hdrLine :: lines := by
    rw [splitLines_append _ h1, splitLines_joinLines _ h2 h3]
  have h5 : (hdrLine :: lines).getLast? ≠ some [] := by
    cases lines with
    | nil => exact absurd rfl h2
    | cons g gs =>
      rw [List.getLast?_cons_cons]
      intro hcon
      rcases List.mem_getLast?_eq_getLast (Option.mem_def.2 hcon) with ⟨hne, heq⟩
      have hmem := List.getLast_mem hne
      rw [← heq] at hmem
      exact h4 [] hmem rfl
  show (if (splitLines (hdrLine ++ '\n' :: joinLines lines)).getLast? = some []
      then (splitLines (hdrLine ++ '\n' :: joinLines lines)).dropLast
      else splitLines (hdrLine ++ '\n' :: joinLines lines)) = hdrLine :: lines
  rw [hs, if_neg h5]

theorem chunkRowCount_chunk (hdr : List (List Char)) (lines : List (List Char))
    (hh : ∀ f ∈ hdr, '\n' ∉ f) (h2 : lines ≠ [])
    (h3 : ∀ l ∈ lines, '\n' ∉ l) (h4 : ∀ l ∈ lines, l ≠ []) :
    chunkRowCount ((encodeLine hdr ++ ['\n']) ++ joinLines lines) = lines.length := by
  have hstep : (encodeLine hdr ++ ['\n']) ++ joinLines lines
      = encodeLine hdr ++ '\n' :: joinLines lines := by simp
  rw [chunkRowCount, hstep,
    pySplitlines_chunk _ _ (newline_not_mem_encodeLine hh) h2 h3 h4]
  simp

theorem runUpload_spec (status : Nat → Nat) :
    ∀ (reqs : List (ChunkRequest δ)) (progress : Nat) (failed : List Nat),
      runUpload status reqs progress failed =
        (progress + ((reqs.filter (fun q => status q.chunkNumber == 200)).map
            (fun q => chunkRowCount q.dataFileContent)).sum,
          failed ++ (reqs.filter (fun q => !(status q.chunkNumber == 200))).map
            ChunkRequest.chunkNumber) := by
  intro reqs
  induction reqs with
  | nil => intro p f; simp [runUpload]
  | cons r rest ih =>
    intro p f
    by_cases h : status r.chunkNumber = 200
    · simp [runUpload, h, ih, Nat.add_assoc]
    · simp [runUpload, h, ih]

/-! ## Claim C2: chunking completeness -/

/-- C2: for `rows_per_chunk = k > 0` and `n` data records, `upload_dataset`
submits exactly `ceil(n/k)` chunks; every chunk except possibly the last
carries exactly `k` rows and the last carries at least one and at most `k`;
the chunk numbers transmitted are exactly `1..ceil(n/k)` in increasing order,
the final partial buffer being submitted the same way as full chunks. -/
theorem upload_chunking (filePath fileName : List Char) (datasetId : δ)
    (header : List (List Char)) (records : List (List (List Char))) (k : Nat)
    (hk : 0 < k) :
    (uploadChunks k records).length = (records.length + (k - 1)) / k ∧
    (uploadChunks k records).map Prod.fst =
      List.range' 1 ((records.length + (k - 1)) / k) ∧
    (∀ p ∈ uploadChunks k records, 0 < p.2.length ∧ p.2.length ≤ k) ∧
    (∀ i, i + 1 < (uploadChunks k records).length →
      ∃ p, (uploadChunks k records)[i]? = some p ∧ p.2.length = k) ∧
    (upload_dataset filePath datasetId fileName header records k).map
        ChunkRequest.chunkNumber =
      List.range' 1 ((records.length + (k - 1)) / k) := by
  have e1 : uploadChunks k records = uploadLoop k (records.map encodeLine) [] 0 := rfl
  have hlen : (uploadChunks k records).length = (records.length + (k - 1)) / k := by
    rw [e1, uploadLoop_length k hk _ [] 0 (by simpa using hk)]
    simp
  refine ⟨hlen, ?_, ?_, ?_, ?_⟩
  · rw [e1, uploadLoop_numbers, ← e1, hlen]
  · intro p hp
    exact uploadLoop_sizes k hk _ [] 0 (by simpa using hk) p (by rwa [e1] at hp)
  · intro i hi
    rw [e1] at hi ⊢
    exact uploadLoop_full k _ [] 0 i hi
  · rw [upload_dataset_eq, List.map_map]
    have h2 : (ChunkRequest.chunkNumber ∘ fun p =>
        (⟨filePath, (encodeLine header ++ ['\n']) ++ joinLines p.2, datasetId, p.1⟩ :
          ChunkRequest δ)) = Prod.fst := rfl
    rw [h2, e1, uploadLoop_numbers, ← e1, hlen]

/-- C2 witness: three records with `rows_per_chunk = 2` give chunks of 2 and 1
rows, numbered 1, 2. -/
theorem upload_chunking_witness :
    0 < 2 ∧
    ((uploadChunks 2 [[['x']], [['y']], [['z']]]).length = (3 + (2 - 1)) / 2 ∧
    (uploadChunks 2 [[['x']], [['y']], [['z']]]).map Prod.fst =
      List.range' 1 ((3 + (2 - 1)) / 2) ∧
    (∀ p ∈ uploadChunks 2 [[['x']], [['y']], [['z']]],
      0 < p.2.length ∧ p.2.length ≤ 2) ∧
    (∀ i, i + 1 < (uploadChunks 2 [[['x']], [['y']], [['z']]]).length →
      ∃ p, (uploadChunks 2 [[['x']], [['y']], [['z']]])[i]? = some p ∧
        p.2.length = 2) ∧
    (upload_dataset ['f'] (0 : Nat) ['g'] [['h']] [[['x']], [['y']], [['z']]] 2).map
        ChunkRequest.chunkNumber =
      List.range' 1 ((3 + (2 - 1)) / 2)) := by
  constructor
  · decide
  · have h := upload_chunking ['f'] ['g'] (0 : Nat) [['h']]
      [[['x']], [['y']], [['z']]] 2 (by decide)
    simpa using h

/-! ## Claim C3: total rows submitted equal the pre-scan count -/

/-- C3 (amended): for an input file with a well-formed header line whose data
lines are each a nonempty single-line record (no blank data lines, no fields
with embedded newlines), the total number of data rows carried by the
submitted chunks equals the pre-scan row count (total lines minus the header
line); when every chunk submission returns status 200, the progress total
equals that count and no chunk is reported failed. -/
theorem upload_total_rows (filePath fileName : List Char) (datasetId : δ)
    (header : List (List Char)) (records : List (List (List Char))) (k : Nat)
    (status : Nat → Nat) (hk : 0 < k)
    (hh : ∀ f ∈ header, '\n' ∉ f)
    (hr : ∀ r ∈ records, r ≠ [])
    (hrn : ∀ r ∈ records, ∀ f ∈ r, '\n' ∉ f)
    (hok : ∀ q ∈ upload_dataset filePath datasetId fileName header records k,
      status q.chunkNumber = 200) :
    ((upload_dataset filePath datasetId fileName header records k).map
        (fun q => chunkRowCount q.dataFileContent)).sum = preScanRowCount records ∧
    runUpload status (upload_dataset filePath datasetId fileName header records k)
        0 [] = (preScanRowCount records, []) := by
  have hmain : (upload_dataset filePath datasetId fileName header records k).map
      (fun q => chunkRowCount q.dataFileContent) =
      (uploadChunks k records).map (fun p => p.2.length) := by
    rw [upload_dataset_eq, List.map_map]
    apply List.map_congr_left
    intro p hp
    have hsz := uploadLoop_sizes k hk _ [] 0 (by simpa using hk) p hp
    have hmem := uploadLoop_mem k _ [] 0 p hp
    have hlines_nl : ∀ l ∈ p.2, '\n' ∉ l := by
      intro l hl
      rcases hmem l hl with h1 | h2
      · simp at h1
      · rcases List.mem_map.1 h2 with ⟨x, hx, rfl⟩
        exact newline_not_mem_encodeLine (hrn x hx)
    have hlines_ne : ∀ l ∈ p.2, l ≠ [] := by
      intro l hl
      rcases hmem l hl with h1 | h2
      · simp at h1
      · rcases List.mem_map.1 h2 with ⟨x, hx, rfl⟩
        exact encodeLine_ne_nil (hr x hx)
    have hpne : p.2 ≠ [] := by
      intro hcon
      rw [hcon] at hsz
      simp at hsz
    exact chunkRowCount_chunk header p.2 hh hpne hlines_nl hlines_ne
  have hsum : ((uploadChunks k records).map (fun p => p.2.length)).sum
      = records.length := by
    have hjoin := uploadLoop_join k (records.map encodeLine) [] 0
    have h2 : ((uploadChunks k records).map (fun p => p.2.length)).sum
        = (((uploadChunks k records).map Prod.snd).flatten).length := by
      rw [List.length_flatten, List.map_map]
      rfl
    rw [h2]
    have e1 : (uploadChunks k records).map Prod.snd =
        (uploadLoop k (records.map encodeLine) [] 0).map Prod.snd := rfl
    rw [e1, hjoin]
    simp
  constructor
  · rw [hmain, hsum]
    rfl
  · rw [runUpload_spec]
    have hfilter : (upload_dataset filePath datasetId fileName header records k).filter
        (fun q => status q.chunkNumber == 200) =
        upload_dataset filePath datasetId fileName header records k := by
      rw [List.filter_eq_self]
      intro q hq
      simpa using hok q hq
    have hfilter2 : (upload_dataset filePath datasetId fileName header records k).filter
        (fun q => !(status q.chunkNumber == 200)) = [] := by
      rw [List.filter_eq_nil_iff]
      intro q hq
      simpa using hok q hq
    rw [hfilter, hfilter2, hmain, hsum]
    simp [preScanRowCount]

/-- C3 witness: three records uploaded with `rows_per_chunk = 2` and an
all-200 transport carry 3 data rows in total, the pre-scan count. -/
theorem upload_total_rows_witness :
    0 < 2 ∧
    (((upload_dataset ['f'] (0 : Nat) ['g'] [['h']] [[['x']], [['y']], [['z']]] 2).map
        (fun q => chunkRowCount q.dataFileContent)).sum =
      preScanRowCount [[['x']], [['y']], [['z']]] ∧
    runUpload (fun _ => 200)
        (upload_dataset ['f'] (0 : Nat) ['g'] [['h']] [[['x']], [['y']], [['z']]] 2)
        0 [] = (preScanRowCount [[['x']], [['y']], [['z']]], [])) :=
  ⟨by decide,
    upload_total_rows ['f'] ['g'] (0 : Nat) [['h']] [[['x']], [['y']], [['z']]] 2
      (fun _ => 200) (by decide) (by decide) (by decide) (by decide) (by decide)⟩

/-- C3 counterexample: a readable file `"h\nA\n\n"` with a well-formed header
line and a blank data line. The pre-scan counts 2 data rows (3 physical lines
minus the header), but the blank line's zero-field record encodes to an empty
buffered line, the chunk payload is `'"h"\n"A"\n'`, and with an all-200
transport the submitted data-row total `len(chunk_data.splitlines()) - 1`
(the progress total) is 1, not the pre-scan count 2 — so the claim fails
without the single-nonempty-record-per-line condition. -/
theorem upload_total_rows_counterexample :
    ((upload_dataset ['f'] (0 : Nat) ['g'] [['h']] [[['A']], []] 2).map
        (fun q => chunkRowCount q.dataFileContent)).sum = 1 ∧
    preScanRowCount [[['A']], []] = 2 ∧
    runUpload (fun _ => 200)
        (upload_dataset ['f'] (0 : Nat) ['g'] [['h']] [[['A']], []] 2) 0 [] =
      (1, []) ∧
    ((upload_dataset ['f'] (0 : Nat) ['g'] [['h']] [[['A']], []] 2).map
        (fun q => chunkRowCount q.dataFileContent)).sum ≠
      preScanRowCount [[['A']], []] := by
  decide

/-! ## Claim C7: per-chunk success and failure handling -/

/-- C7: submitting a chunk with status 200 advances progress by exactly
`len(chunk_data.splitlines()) - 1` (the chunk's data-row count) and submitting
with any other status leaves progress unchanged, records the chunk number as
failed, and continues with the remaining chunks; over a whole run the final
progress is the initial progress plus the row counts of exactly the
status-200 chunks, and the failures are exactly the non-200 chunk numbers. -/
theorem upload_chunk_error_handling (status : Nat → Nat) (r : ChunkRequest δ)
    (rest : List (ChunkRequest δ)) (progress : Nat) (failed : List Nat) :
    (status r.chunkNumber = 200 →
      runUpload status (r :: rest) progress failed =
        runUpload status rest (progress + chunkRowCount r.dataFileContent) failed) ∧
    (status r.chunkNumber ≠ 200 →
      runUpload status (r :: rest) progress failed =
        runUpload status rest progress (failed ++ [r.chunkNumber])) ∧
    (runUpload status (r :: rest) progress failed).1 =
      progress + (((r :: rest).filter (fun q => status q.chunkNumber == 200)).map
        (fun q => chunkRowCount q.dataFileContent)).sum ∧
    (runUpload status (r :: rest) progress failed).2 =
      failed ++ ((r :: rest).filter (fun q => !(status q.chunkNumber == 200))).map
        ChunkRequest.chunkNumber := by
  refine ⟨?_, ?_, ?_, ?_⟩
  · intro h
    simp [runUpload, h]
  · intro h
    simp [runUpload, h]
  · rw [runUpload_spec]
  · rw [runUpload_spec]

/-- C7 witness: a two-chunk run where chunk 1 succeeds with 2 data rows and
chunk 2 fails ends with progress 2 and failure list `[2]`. -/
theorem upload_chunk_error_handling_witness :
    (fun n => if n = 1 then 200 else 500) (1 : Nat) = 200 ∧
    runUpload (fun n => if n = 1 then 200 else 500)
      [(⟨['f'], ['h', '\n', 'x', '\n', 'y'], 0, 1⟩ : ChunkRequest Nat),
       ⟨['f'], ['h', '\n', 'z'], 0, 2⟩] 0 [] = (2, [2]) := by
  constructor
  · decide
  · have h := upload_chunk_error_handling (fun n => if n = 1 then 200 else 500)
      (⟨['f'], ['h', '\n', 'x', '\n', 'y'], 0, 1⟩ : ChunkRequest Nat)
      [⟨['f'], ['h', '\n', 'z'], 0, 2⟩] 0 []
    rw [h.1 (by decide)]
    decide

/-! ## Claim C9: shape of the multipart chunk request -/

/-- C9 counterexample: calling `upload_dataset` with file path `"d"` and
caller-supplied `file_name` `"o"` submits a `data_file` part named `"d"` —
the opened file's path — not the caller-supplied `"o"`, because line 581
rebinds `file_name = file.name` before submitting. -/
theorem upload_request_name_counterexample :
    (upload_dataset ['d'] (0 : Nat) ['o'] [['a']] [[['x']]] 1).map
        ChunkRequest.dataFileName = [['d']] ∧
    (['d'] : List Char) ≠ ['o'] := by
  decide

/-- C9 (amended): each chunk is submitted as a multipart request whose
`data_file` part is named with the opened file's path (the `file_path`
argument) — the caller-supplied `file_name` argument having been overwritten
by `file_name = file.name` — and carries the chunk payload
`header_str + '\n'.join(rows)` as content, together with form fields
`dataset_id` and the chunk's 1-based `chunk_number`. -/
theorem upload_request_shape (filePath fileName : List Char) (datasetId : δ)
    (header : List (List Char)) (records : List (List (List Char))) (k : Nat) :
    upload_dataset filePath datasetId fileName header records k =
      (uploadChunks k records).map
        (fun p => ⟨filePath, (encodeLine header ++ ['\n']) ++ joinLines p.2,
          datasetId, p.1⟩) ∧
    ∀ q ∈ upload_dataset filePath datasetId fileName header records k,
      q.dataFileName = filePath ∧ q.datasetId = datasetId := by
  constructor
  · exact upload_dataset_eq filePath datasetId fileName header records k
  · intro q hq
    rw [upload_dataset_eq] at hq
    rcases List.mem_map.1 hq with ⟨p, hp, rfl⟩
    exact ⟨rfl, rfl⟩

/-- C9 witness: the single chunk of a one-record upload carries the file
path as part name, the encoded payload, the dataset id and chunk number 1. -/
theorem upload_request_shape_witness :
    upload_dataset ['d'] (7 : Nat) ['o'] [['a']] [[['x']]] 1 =
      (uploadChunks 1 [[['x']]]).map
        (fun p => ⟨['d'], (encodeLine [['a']] ++ ['\n']) ++ joinLines p.2,
          7, p.1⟩) ∧
    ∀ q ∈ upload_dataset ['d'] (7 : Nat) ['o'] [['a']] [[['x']]] 1,
      q.dataFileName = ['d'] ∧ q.datasetId = 7 :=
  upload_request_shape ['d'] ['o'] (7 : Nat) [['a']] [[['x']]] 1

/-! ## Retrying query call (from `_query`, lines 432-465) -/

/-- A transport response as seen by `_query`: `resp.ok` plus the body the
caller parses or translates into an error. -/
structure QResp (β : Type) where
  ok : Bool
  body : β
deriving DecidableEq

/-- `max_retries = 3`. -/
def max_retries : Nat := 3

/-- `retry_delay = 1` (seconds). -/
def retry_delay : Nat := 1

/-- The `for attempt in range(max_retries)` loop of `_query`: issue the
request for the current attempt; on `resp.ok` leave the loop at once;
otherwise, when this is not the last allowed attempt, sleep once and retry;
the last response is retained either way. Returns the retained response
(`none` only if no iteration ran) and the number of sleeps performed. -/
def queryIter (resps : Nat → QResp β) :
    List Nat → Nat → Option (QResp β) → Option (QResp β) × Nat
  | [], sleeps, last => (last, sleeps)
  | a :: rest, sleeps, _ =>
    let r := resps a
    if r.ok then (some r, sleeps)
    else if a < max_retries - 1 then queryIter resps rest (sleeps + 1) (some r)
    else queryIter resps rest sleeps (some r)

/-- The retry loop of `_query` run over attempts `0..max_retries-1`,
with the transport's response to attempt `i` given by `resps i`. -/
def runQuery (resps : Nat → QResp β) : Option (QResp β) × Nat :=
  queryIter resps (List.range max_retries) 0 none

/-- The tail of `_query`: `raise_bagel_error(resp)` translates a non-ok final
response into a raised error derived from its body, and an ok response is
parsed into the query result. -/
def queryResult (resps : Nat → QResp β) : Option (Except β β) :=
  match runQuery resps with
  | (none, _) => none
  | (some r, _) => some (if r.ok then .ok r.body else .error r.body)

/-- The number of `time.sleep(retry_delay)` calls performed by `_query`. -/
def querySleeps (resps : Nat → QResp β) : Nat :=
  (runQuery resps).2

/-! ## Claim C4: retry bound -/

/-- C4: the retrying query makes at most 3 attempts with a fixed delay
between consecutive attempts. When attempts 1 and 2 fail: if attempt 3
succeeds, `_query` returns the parsed success result having slept exactly
twice; if attempt 3 also fails, the error surfaced to the caller is derived
from the third attempt's response (and the loop still slept exactly twice);
and no response beyond the third is ever consulted. -/
theorem query_retry_bound {β : Type} (resps : Nat → QResp β)
    (h0 : (resps 0).ok = false) (h1 : (resps 1).ok = false) :
    querySleeps resps = 2 ∧
    ((resps 2).ok = true → queryResult resps = some (.ok (resps 2).body)) ∧
    ((resps 2).ok = false → queryResult resps = some (.error (resps 2).body)) ∧
    (∀ resps2 : Nat → QResp β, (∀ i, i < 3 → resps2 i = resps i) →
      runQuery resps2 = runQuery resps) := by
  have hrange : List.range max_retries = [0, 1, 2] := rfl
  have hrun : runQuery resps = (some (resps 2), 2) := by
    rw [runQuery, hrange]
    simp only [queryIter, h0, h1, max_retries]
    norm_num
  refine ⟨?_, ?_, ?_, ?_⟩
  · rw [querySleeps, hrun]
  · intro h2
    rw [queryResult, hrun]
    simp [h2]
  · intro h2
    rw [queryResult, hrun]
    simp [h2]
  · intro resps2 hagree
    have e0 : resps2 0 = resps 0 := hagree 0 (by omega)
    have e1 : resps2 1 = resps 1 := hagree 1 (by omega)
    have e2 : resps2 2 = resps 2 := hagree 2 (by omega)
    have hrun2 : runQuery resps2 = (some (resps2 2), 2) := by
      rw [runQuery, hrange]
      simp only [queryIter, e0, e1, h0, h1, max_retries]
      norm_num
    rw [hrun, hrun2, e2]

/-- C4 witness: with failing bodies 10 and 11 and a succeeding attempt 3 with
body 12, the query returns the parsed body 12 after exactly two sleeps. -/
theorem query_retry_bound_witness :
    ((fun i => if i = 0 then ⟨false, 10⟩ else if i = 1 then ⟨false, 11⟩
        else ⟨true, 12⟩ : Nat → QResp Nat) 0).ok = false ∧
    querySleeps (fun i => if i = 0 then ⟨false, 10⟩ else if i = 1 then ⟨false, 11⟩
        else (⟨true, 12⟩ : QResp Nat)) = 2 ∧
    queryResult (fun i => if i = 0 then ⟨false, 10⟩ else if i = 1 then ⟨false, 11⟩
        else (⟨true, 12⟩ : QResp Nat)) = some (.ok 12) := by
  have h := query_retry_bound
    (fun i => if i = 0 then ⟨false, 10⟩ else if i = 1 then ⟨false, 11⟩
      else (⟨true, 12⟩ : QResp Nat)) (by decide) (by decide)
  exact ⟨by decide, h.1, by simpa using h.2.1 (by decide)⟩

/-! ## Download pipeline (from `load_dataset`, lines 546-565) -/

/-- A decoded table fragment as produced by the CSV reader: header columns
plus data rows. -/
abbrev DF := List (List Char) × List (List (List Char))

/-- `pd.DataFrame()`: the empty table returned when no chunk was fetched. -/
def emptyDF : DF := ([], [])

/-- A failure of `load_dataset`: a transport error raised by
`raise_for_status` (on the metadata call or on any chunk call), or an
unparsable chunk payload. -/
inductive LoadError (ε : Type) where
  | transport (e : ε)
  | badPayload
deriving DecidableEq

/-- The chunk download loop of `load_dataset`: for each chunk number in
order, perform the GET; `raise_for_status` aborts the whole call on a failed
response (no later chunk is requested), otherwise the decoded fragment is
collected. Returns the chunk numbers actually requested, in request order,
together with the outcome. -/
def loadLoop (chunk : Nat → Except ε (List Char)) :
    List Nat → List Nat × Except (LoadError ε) (List DF)
  | [] => ([], .ok [])
  | n :: rest =>
    match chunk n with
    | .error e => ([n], .error (.transport e))
    | .ok payload =>
      match decode payload with
      | none => ([n], .error .badPayload)
      | some df =>
        let out := loadLoop chunk rest
        (n :: out.1,
          match out.2 with
          | .error e => .error e
          | .ok dfs => .ok (df :: dfs))

/-- Modelled from the spec: `pd.concat(dfs, ignore_index=True)` over
fragments sharing one header concatenates their rows in list order; with no
fragments the result is `pd.DataFrame()`, the empty table. -/
def concatDF (dfs : List DF) : DF :=
  match dfs with
  | [] => emptyDF
  | d :: _ => (d.1, (dfs.map Prod.snd).flatten)

/-- Embeds `load_dataset(dataset_id)`: the metadata call yields
`total_chunks` or fails with a transport error; chunk numbers
`1..total_chunks` are then fetched in increasing order and the decoded
fragments concatenated into one table. -/
def load_dataset (info : Except ε Nat) (chunk : Nat → Except ε (List Char)) :
    Except (LoadError ε) DF :=
  match info with
  | .error e => .error (.transport e)
  | .ok total =>
    match (loadLoop chunk (List.range' 1 total)).2 with
    | .error e => .error e
    | .ok dfs => .ok (concatDF dfs)

/-- The chunk numbers `load_dataset` actually requests, in request order
(the metadata call is not a chunk request). -/
def loadTrace (info : Except ε Nat) (chunk : Nat → Except ε (List Char)) :
    List Nat :=
  match info with
  | .error _ => []
  | .ok total => (loadLoop chunk (List.range' 1 total)).1

theorem concatDF_snd (dfs : List DF) :
    (concatDF dfs).2 = (dfs.map Prod.snd).flatten := by
  cases dfs <;> simp [concatDF, emptyDF]

theorem loadLoop_all_ok {ε : Type} (chunk : Nat → Except ε (List Char))
    (dfs : Nat → DF) :
    ∀ ns : List Nat, (∀ n ∈ ns, ∃ p, chunk n = .ok p ∧ decode p = some (dfs n)) →
      loadLoop chunk ns = (ns, .ok (ns.map dfs)) := by
  intro ns
  induction ns with
  | nil => intro _; rfl
  | cons n rest ih =>
    intro h
    rcases h n (by simp) with ⟨p, hp, hd⟩
    simp only [loadLoop, hp, hd]
    rw [ih (fun m hm => h m (List.mem_cons_of_mem _ hm))]
    simp

theorem loadLoop_fails {ε : Type} (chunk : Nat → Except ε (List Char))
    (dfs : Nat → DF) (e : ε) :
    ∀ (good : List Nat) (j : Nat) (rest : List Nat),
      (∀ n ∈ good, ∃ p, chunk n = .ok p ∧ decode p = some (dfs n)) →
      chunk j = .error e →
      loadLoop chunk (good ++ j :: rest) = (good ++ [j], .error (.transport e)) := by
  intro good
  induction good with
  | nil =>
    intro j rest _ hj
    simp only [List.nil_append, loadLoop, hj]
  | cons n g ih =>
    intro j rest h hj
    rcases h n (by simp) with ⟨p, hp, hd⟩
    simp only [List.cons_append, loadLoop, hp, hd, List.append_eq]
    rw [ih j rest (fun m hm => h m (List.mem_cons_of_mem _ hm)) hj]

/-! ## Claim C5: download ordering and concatenation -/

/-- C5: when the metadata call reports `total_chunks = N` and all `N` chunk
requests succeed and decode, `load_dataset` requests exactly the chunk
numbers `1..N` in increasing order and returns the table concatenating the
decoded fragments in that order, whose rows are the fragments' rows in
sequence; in particular `N = 0` yields no chunk requests and the empty
table. -/
theorem load_dataset_ordering {ε : Type} (N : Nat)
    (chunk : Nat → Except ε (List Char)) (dfs : Nat → DF)
    (h : ∀ n ∈ List.range' 1 N, ∃ p, chunk n = .ok p ∧ decode p = some (dfs n)) :
    loadTrace (.ok N) chunk = List.range' 1 N ∧
    load_dataset (.ok N) chunk = .ok (concatDF ((List.range' 1 N).map dfs)) ∧
    (concatDF ((List.range' 1 N).map dfs)).2 =
      ((List.range' 1 N).map (fun n => (dfs n).2)).flatten ∧
    (N = 0 → loadTrace (.ok N) chunk = [] ∧ load_dataset (.ok N) chunk = .ok emptyDF) := by
  have hl := loadLoop_all_ok chunk dfs (List.range' 1 N) h
  refine ⟨?_, ?_, ?_, ?_⟩
  · show (loadLoop chunk (List.range' 1 N)).1 = _
    rw [hl]
  · show (match (loadLoop chunk (List.range' 1 N)).2 with
      | .error e => .error e
      | .ok dfs => .ok (concatDF dfs)) = Except.ok (concatDF ((List.range' 1 N).map dfs))
    rw [hl]
  · rw [concatDF_snd, List.map_map]
    rfl
  · intro hN
    subst hN
    exact ⟨rfl, rfl⟩

/-- C5 witness: two identical one-row chunks are requested as 1, 2 and
concatenated into a two-row table. -/
theorem load_dataset_ordering_witness :
    loadTrace (Except.ok 2)
        (fun _ => Except.ok (encode [['a']] [[['x']]]) : Nat → Except Nat (List Char)) =
      [1, 2] ∧
    load_dataset (Except.ok 2)
        (fun _ => Except.ok (encode [['a']] [[['x']]]) : Nat → Except Nat (List Char)) =
      .ok ([['a']], [[['x']], [['x']]]) := by
  have h := load_dataset_ordering (ε := Nat) 2
    (fun _ => .ok (encode [['a']] [[['x']]]))
    (fun _ => ([['a']], [[['x']]]))
    (fun n _ => ⟨encode [['a']] [[['x']]], rfl, by
      show decode (encode [['a']] [[['x']]]) = some ([['a']], [[['x']]])
      decide⟩)
  exact ⟨h.1.trans rfl, h.2.1.trans rfl⟩

/-! ## Claim C6: download is all-or-nothing -/

/-- C6: `load_dataset` is all-or-nothing — a failed metadata call fails the
whole operation with a transport error and requests no chunk; and when
chunks `1..j-1` succeed but chunk `j ≤ N` fails, the whole operation fails
with that chunk's transport error, no table is returned, and the requests
made are exactly `1..j` — nothing is requested after the failing chunk. -/
theorem load_dataset_all_or_nothing {ε : Type} (info : Except ε Nat)
    (chunk : Nat → Except ε (List Char)) (N j : Nat) (e : ε) (dfs : Nat → DF)
    (hj1 : 1 ≤ j) (hjN : j ≤ N)
    (hgood : ∀ n ∈ List.range' 1 (j - 1),
      ∃ p, chunk n = .ok p ∧ decode p = some (dfs n))
    (hfail : chunk j = .error e) :
    (∀ e2 : ε, info = .error e2 →
      load_dataset info chunk = .error (.transport e2) ∧ loadTrace info chunk = []) ∧
    load_dataset (.ok N) chunk = .error (.transport e) ∧
    loadTrace (.ok N) chunk = List.range' 1 j := by
  have hsplit : List.range' 1 N =
      List.range' 1 (j - 1) ++ j :: List.range' (j + 1) (N - j) := by
    have h1 := List.range'_append_1 1 (j - 1) (N - j + 1)
    have h2 : 1 + (j - 1) = j := by omega
    have h3 : N - j + 1 + (j - 1) = N := by omega
    rw [h2, h3] at h1
    rw [← h1]
    congr 1
  have hloop := loadLoop_fails chunk dfs e (List.range' 1 (j - 1)) j
    (List.range' (j + 1) (N - j)) hgood hfail
  have hone : List.range' 1 (j - 1) ++ [j] = List.range' 1 j := by
    have h1 := List.range'_append_1 1 (j - 1) 1
    have h2 : 1 + (j - 1) = j := by omega
    rw [h2] at h1
    have h4 : List.range' j 1 = [j] := rfl
    rw [h4] at h1
    exact h1
  refine ⟨?_, ?_, ?_⟩
  · intro e2 he2
    subst he2
    exact ⟨rfl, rfl⟩
  · show (match (loadLoop chunk (List.range' 1 N)).2 with
      | .error e => .error e
      | .ok dfs => .ok (concatDF dfs)) = Except.error (LoadError.transport e)
    rw [hsplit, hloop]
  · show (loadLoop chunk (List.range' 1 N)).1 = _
    rw [hsplit, hloop, hone]

/-- C6 witness: with two chunks where chunk 2 fails with transport error 5,
the download fails with that error after requesting exactly chunks 1, 2. -/
theorem load_dataset_all_or_nothing_witness :
    load_dataset (Except.ok 2)
        (fun n => if n = 2 then .error 5 else .ok (encode [['a']] [[['x']]])
          : Nat → Except Nat (List Char)) = .error (.transport 5) ∧
    loadTrace (Except.ok 2)
        (fun n => if n = 2 then .error 5 else .ok (encode [['a']] [[['x']]])
          : Nat → Except Nat (List Char)) = [1, 2] := by
  have h := load_dataset_all_or_nothing (Except.ok 2 : Except Nat Nat)
    (fun n => if n = 2 then .error 5 else .ok (encode [['a']] [[['x']]]))
    2 2 5 (fun _ => ([['a']], [[['x']]])) (by omega) (by omega)
    (fun n hn => ⟨encode [['a']] [[['x']]], by
      have hn1 : n = 1 := by simpa using hn
      subst hn1
      rfl, by
      show decode (encode [['a']] [[['x']]]) = some ([['a']], [[['x']]])
      decide⟩)
    rfl
  exact ⟨h.2.1, h.2.2.trans rfl⟩

/-! ## Per-call header composition
(from `_popuate_headers_with_api_key`, lines 661-666) -/

/-- The client's `__headers` dictionary: ordered key/value pairs, where a
value `none` models Python `None` stored under the key. -/
abbrev Headers := List (List Char × Option (List Char))

/-- The `X_API_KEY` header name `'x-api-key'`. -/
def xApiKey : List Char := ['x', '-', 'a', 'p', 'i', '-', 'k', 'e', 'y']

/-- Python dict update `d[k] = v`: replace the value in place when the key
exists, append the pair otherwise. -/
def dictInsert : Headers → List Char → Option (List Char) → Headers
  | [], k, v => [(k, v)]
  | p :: rest, k, v =>
    if p.1 = k then (k, v) :: rest else p :: dictInsert rest k v

/-- Python dict lookup: `some v` when the key is present with value `v`. -/
def dictGet : Headers → List Char → Option (Option (List Char))
  | [], _ => none
  | p :: rest, k => if p.1 = k then some p.2 else dictGet rest k

/-- Embeds `_popuate_headers_with_api_key(api_key)` called on an object whose
`__headers` field holds `base`: `headers = self.__headers.copy()` takes a
copy sharing no structure with the field; when `BAGEL_API_KEY` is set in the
environment and the argument is `None` the environment value is used; the
resulting api key is written into the copy under `'x-api-key'`. Returns the
composed per-call headers together with the object's `__headers` field after
the call (the copy is mutated, the field is not). -/
def popuate_headers_with_api_key (base : Headers)
    (envApiKey apiKey : Option (List Char)) : Headers × Headers :=
  let headers := base
  let apiKey2 := if envApiKey ≠ none ∧ apiKey = none then envApiKey else apiKey
  (dictInsert headers xApiKey apiKey2, base)

theorem dictGet_dictInsert_self :
    ∀ (d : Headers) (k : List Char) (v : Option (List Char)),
      dictGet (dictInsert d k v) k = some v := by
  intro d k v
  induction d with
  | nil => simp [dictInsert, dictGet]
  | cons p rest ih =>
    by_cases h : p.1 = k
    · simp [dictInsert, dictGet, h]
    · simp [dictInsert, dictGet, h, ih]

theorem dictGet_dictInsert_ne :
    ∀ (d : Headers) (k k2 : List Char) (v : Option (List Char)), k2 ≠ k →
      dictGet (dictInsert d k v) k2 = dictGet d k2 := by
  intro d k k2 v hne
  have hne2 : ¬(k = k2) := fun hc => hne hc.symm
  induction d with
  | nil => simp [dictInsert, dictGet, hne2]
  | cons p rest ih =>
    by_cases h : p.1 = k
    · subst h
      simp [dictInsert, dictGet, hne2]
    · simp only [dictInsert, if_neg h]
      by_cases h2 : p.1 = k2
      · simp [dictGet, h2]
      · simp [dictGet, h2, ih]

/-! ## Claim C10: no cross-call header mutation -/

/-- C10: building per-call headers through the api-key population helper
never mutates the shared base header dictionary — the helper works on a copy.
The base is identical before and after the call, the composed headers hold
the resolved api key under `'x-api-key'` and agree with the base on every
other key, and the api-key entry added for one call is not observable by a
later call: a second call started from the post-call base composes exactly
what it would compose from the original base. -/
theorem headers_no_cross_call_mutation (base : Headers)
    (envApiKey apiKey envApiKey2 apiKey2 : Option (List Char)) :
    (popuate_headers_with_api_key base envApiKey apiKey).2 = base ∧
    dictGet (popuate_headers_with_api_key base envApiKey apiKey).1 xApiKey =
      some (if envApiKey ≠ none ∧ apiKey = none then envApiKey else apiKey) ∧
    (∀ hk, hk ≠ xApiKey →
      dictGet (popuate_headers_with_api_key base envApiKey apiKey).1 hk =
        dictGet base hk) ∧
    (popuate_headers_with_api_key
        ((popuate_headers_with_api_key base envApiKey apiKey).2)
        envApiKey2 apiKey2).1 =
      (popuate_headers_with_api_key base envApiKey2 apiKey2).1 := by
  refine ⟨rfl, dictGet_dictInsert_self _ _ _, ?_, rfl⟩
  intro hk hne
  exact dictGet_dictInsert_ne _ _ _ _ hne

/-- C10 witness: on a base holding one `bagel_source` entry, a call with an
explicit api key leaves the base unchanged, sets `'x-api-key'` in the copy,
preserves the other entry, and a later call from the post-call state matches
a call from the original base. -/
theorem headers_no_cross_call_mutation_witness :
    (popuate_headers_with_api_key [(['b'], some ['s'])] none (some ['k'])).2 =
      [(['b'], some ['s'])] ∧
    dictGet (popuate_headers_with_api_key [(['b'], some ['s'])] none
        (some ['k'])).1 xApiKey =
      some (if (none : Option (List Char)) ≠ none ∧ some ['k'] = none
        then none else some ['k']) ∧
    (∀ hk, hk ≠ xApiKey →
      dictGet (popuate_headers_with_api_key [(['b'], some ['s'])] none
          (some ['k'])).1 hk =
        dictGet [(['b'], some ['s'])] hk) ∧
    (popuate_headers_with_api_key
        ((popuate_headers_with_api_key [(['b'], some ['s'])] none
          (some ['k'])).2) none (some ['j'])).1 =
      (popuate_headers_with_api_key [(['b'], some ['s'])] none (some ['j'])).1 :=
  headers_no_cross_call_mutation [(['b'], some ['s'])] none (some ['k'])
    none (some ['j'])
